import Mathlib

/-!
Verification of the lipsi pitch-class set library (`src/lib.rs`).

The library works on `pub type PcSet = Vec<i8>`; we model pitch classes as
integers (`Int`).  Rust's `%` on signed integers is the truncated remainder
(sign of the dividend), which is `Int.tmod`; the library's
`((a % 12) + 12) % 12` normalisation pattern is therefore
`((a.tmod 12) + 12).tmod 12`, and we prove it equals the floored residue
`a.emod 12`.  An `i8` addition or subtraction whose mathematical result
leaves `[-128, 127]` wraps around under Rust's release semantics (it panics
in a debug build; we model the release behaviour): such sites are modelled
with `wrap8`.  Sites whose operands provably keep the result inside
`[-128, 127]` (such as adding `12` to a `tmod 12` result, whose value lies
in `(-12, 12)`) are left as plain integer arithmetic.  `usize` is 64 bits
on the targets the crate builds for, so the `skip(n + 1)` count in `rotate`
wraps modulo `2 ^ 64`.
-/

namespace Lipsi

/-- The Rust type `pub type PcSet = Vec<i8>`, modelled as a list of integers. -/
abbrev PcSet := List Int

/-- Wrapping of an `i8` arithmetic result into `[-128, 127]`: the
two-complement wrap-around that Rust release builds perform on overflow. -/
def wrap8 (a : Int) : Int :=
  (a + 128) % 256 - 128

/-- Source `fn invert`: `self.iter().map(|x| (12 - x) % 12).collect()`.
The subtraction `12 - x` is `i8` arithmetic and wraps (for `i8` inputs it
does so exactly when `x ≤ -116`); the `% 12` result lies in `(-12, 12)` and
cannot wrap. -/
def invert (s : PcSet) : PcSet :=
  s.map (fun x => (wrap8 (12 - x)).tmod 12)

/-- Source `fn transpose`: `self.iter().map(|x| ((x + n) % 12 + 12) % 12).collect()`. -/
def transpose (s : PcSet) (n : Int) : PcSet :=
  s.map (fun x => ((x + n).tmod 12 + 12).tmod 12)

/-- Source `fn chroma`:
`(0..12).map(|x| self.contains(&x)).rev().fold(0, |acc, x| (acc << 1) | x as u16)`.
Since each incoming bit is `0` or `1`, `(acc << 1) | bit` is `acc * 2 + bit`;
the result fits in 12 bits so `Nat` models the `u16` accumulator exactly. -/
def chroma (s : PcSet) : Nat :=
  (((List.range 12).map (fun (i : Nat) => s.contains (i : Int))).reverse).foldl
    (fun acc b => acc * 2 + (if b then 1 else 0)) 0

/-- Inner loop of source `fn sort` (insertion sort): the element `x` is
shifted left past every strictly greater element of the sorted prefix,
i.e. it is inserted just before the first element greater than `x`. -/
def insertAsc (x : Int) : List Int → List Int
  | [] => [x]
  | y :: ys => if x < y then x :: y :: ys else y :: insertAsc x ys

/-- Source `fn sort`: insertion sort, processing elements left to right and
inserting each into the already sorted prefix. -/
def sort (s : PcSet) : PcSet :=
  s.foldl (fun acc x => insertAsc x acc) []

/-- Source `fn rotate`:
`self.iter().cycle().skip(n + 1).take(self.len()).cloned().collect()`.
The skip count `n + 1` is `usize` arithmetic and wraps modulo `2 ^ 64` (at
`n = usize::MAX` the count becomes `0`); element `i` of the result is
element `(skip + i) mod len` of the cyclic iterator over `self` (for empty
input the `take(0)` yields the empty list). -/
def rotate (s : PcSet) (n : Nat) : PcSet :=
  (List.range s.length).map (fun i => s.getD (((n + 1) % 2 ^ 64 + i) % s.length) 0)

/-- Source `fn zero`: `match self.first() { Some(head) => self.transpose(12 - head), None => self.clone() }`. -/
def zero (s : PcSet) : PcSet :=
  match s.head? with
  | some head => transpose s (12 - head)
  | none => s

/-- Source `fn intervals`: for nonempty input with first element `first`,
maps `((x - first) % 12 + 12) % 12` over the reversed list. -/
def intervals (s : PcSet) : List Int :=
  match s.head? with
  | none => []
  | some first => s.reverse.map (fun x => ((x - first).tmod 12 + 12).tmod 12)

/-- Boolean lexicographic strict order on integer lists: the `Ord` instance
of Rust's `Vec<i8>` (elementwise comparison, a strict prefix is smaller),
as used by the source's `<` and `>` on `intervals()` results. -/
def lexLt : List Int → List Int → Bool
  | _, [] => false
  | [], _ :: _ => true
  | x :: xs, y :: ys => if x < y then true else if y < x then false else lexLt xs ys

/-- Rust `Vec::dedup`: removes consecutive repeated elements (one survivor
per run of equal elements). -/
def dedupConsec : List Int → List Int
  | [] => []
  | [x] => [x]
  | x :: y :: rest =>
      if x = y then dedupConsec (y :: rest) else x :: dedupConsec (y :: rest)

/-- Source `fn normal`: sorts, dedups (consecutive, hence full after the
sort), then folds over the rotations `sorted.rotate(x)` for
`x in 0..self.len()` keeping the candidate whose `intervals()` vector is
lexicographically smallest (first found wins on ties; the accumulator is
replaced exactly when `x.intervals() > y.intervals()`). -/
def normal (s : PcSet) : PcSet :=
  let sorted := dedupConsec (sort s)
  ((List.range s.length).map (fun x => rotate sorted x)).foldl
    (fun x y => if lexLt (intervals y) (intervals x) then y else x) sorted

/-- Source `fn reduced`: `self.normal().zero()`. -/
def reduced (s : PcSet) : PcSet :=
  zero (normal s)

/-- Source `fn prime`:
`let a = self.normal().zero(); let b = self.invert().normal().zero();
if a.intervals() < b.intervals() { a } else { b }`. -/
def prime (s : PcSet) : PcSet :=
  let a := zero (normal s)
  let b := zero (normal (invert s))
  if lexLt (intervals a) (intervals b) then a else b

/-- Source `fn transposition_number`: `None` on a length mismatch, otherwise
the elementwise differences `((y - x) % 12 + 12) % 12`; `Some(first)` if all
differences equal the first one, `None` otherwise (hence `None` on empty).
The subtraction `y - x` is `i8` arithmetic and wraps for spreads outside
`[-128, 127]`; the later `+ 12` acts on a `(-12, 12)` value and cannot. -/
def transposition_number (s t : PcSet) : Option Int :=
  if s.length ≠ t.length then none
  else
    let differences := List.zipWith (fun x y => ((wrap8 (y - x)).tmod 12 + 12).tmod 12) s t
    match differences.head? with
    | none => none
    | some first => if differences.all (fun x => x == first) then some first else none

/-- Source `fn index_number`: same shape as `transposition_number` but with
the elementwise sums `((x + y) % 12 + 12) % 12`; the `i8` addition `x + y`
wraps for sums outside `[-128, 127]`. -/
def index_number (s t : PcSet) : Option Int :=
  if s.length ≠ t.length then none
  else
    let sums := List.zipWith (fun x y => ((wrap8 (x + y)).tmod 12 + 12).tmod 12) s t
    match sums.head? with
    | none => none
    | some first => if sums.all (fun x => x == first) then some first else none

/-- The nested helper `fn f` inside source `fn icvec`: for each suffix, pairs
the suffix head with every later element, computing
`match (x - head) % 12 { n if n > 6 => (12 - n) % 12, n => n }`.
The subtraction `x - head` is `i8` arithmetic and wraps for gaps outside
`[-128, 127]`; in the fold branch `n` lies in `(6, 12)`, so `12 - n` cannot
wrap. -/
def icvecF : PcSet → List Int
  | [] => []
  | head :: tail =>
      tail.map (fun x =>
        let n := (wrap8 (x - head)).tmod 12
        if n > 6 then (12 - n).tmod 12 else n) ++ icvecF tail

/-- Source `fn icvec`: counts of the values `1..=6` among the pairwise
interval classes produced by the nested helper (a `[usize; 6]` in the
source, modelled as a 6-element list). -/
def icvec (s : PcSet) : List Nat :=
  let intervals := icvecF s
  [ intervals.count 1, intervals.count 2, intervals.count 3
  , intervals.count 4, intervals.count 5, intervals.count 6 ]

/-- Binary value of a little-endian bit list (head is the least significant
bit); proof-side companion of the fold inside `chroma`. -/
def bnum (bs : List Bool) : Nat :=
  bs.foldr (fun b acc => acc * 2 + (if b then 1 else 0)) 0

/-! ### Truncated-remainder toolkit

Facts connecting Rust's `%` (`Int.tmod`) with the floored residue
(`Int.emod`), which `omega` understands. -/

theorem tmod12_gt_neg12 : ∀ a : Int, -12 < a.tmod 12
  | Int.ofNat m => by
      have h := Int.tmod_nonneg (a := Int.ofNat m) 12 (Int.ofNat_nonneg m)
      omega
  | Int.negSucc m => by
      show -12 < -((Nat.succ m % 12 : Nat) : Int)
      have h : Nat.succ m % 12 < 12 := Nat.mod_lt _ (by omega)
      omega

theorem tmod12_lt_12 (a : Int) : a.tmod 12 < 12 :=
  Int.tmod_lt_of_pos a (by omega)

theorem tmod12_emod (a : Int) : (a.tmod 12) % 12 = a % 12 := by
  have h := Int.tmod_def a 12
  omega

/-- The source's normalisation pattern `((a % 12) + 12) % 12` is exactly the
floored residue of `a` modulo 12. -/
theorem rustNorm_eq_emod (a : Int) : (a.tmod 12 + 12).tmod 12 = a % 12 := by
  have h1 : (0:Int) ≤ a.tmod 12 + 12 := by
    have := tmod12_gt_neg12 a
    omega
  rw [Int.tmod_eq_emod h1 (by omega : (0:Int) ≤ 12)]
  have h2 := tmod12_emod a
  omega

theorem tmod12_of_nonneg {a : Int} (h : 0 ≤ a) : a.tmod 12 = a % 12 :=
  Int.tmod_eq_emod h (by omega)

/-- An `i8` operation whose result is already representable does not wrap. -/
theorem wrap8_id (a : Int) (h1 : -128 ≤ a) (h2 : a ≤ 127) : wrap8 a = a := by
  unfold wrap8
  omega

theorem wrap8_bounds (a : Int) : -128 ≤ wrap8 a ∧ wrap8 a ≤ 127 := by
  unfold wrap8
  omega

/-- Wrapping preserves the value modulo 256. -/
theorem wrap8_eq_of_dvd (a b : Int) (hd : (256:Int) ∣ (a - b)) (h1 : -128 ≤ b)
    (h2 : b ≤ 127) : wrap8 a = b := by
  unfold wrap8
  omega

/-! ### Basic facts about the embedded operations -/

/-- Every element of a `transpose` result is a reduced residue in `[0, 12)`. -/
theorem transpose_mem_range (s : PcSet) (n : Int) :
    ∀ y ∈ transpose s n, 0 ≤ y ∧ y < 12 := by
  intro y hy
  simp only [transpose, List.mem_map] at hy
  obtain ⟨x, _, rfl⟩ := hy
  rw [rustNorm_eq_emod]
  omega

theorem rotate_length (s : PcSet) (n : Nat) : (rotate s n).length = s.length := by
  simp [rotate]

/-- The embedded `rotate` (indexing into the cyclic iterator) agrees with
the mathematical cyclic left-rotation by the wrapped skip count
`(n + 1) % 2 ^ 64` positions. -/
theorem rotate_eq_listRotate (s : PcSet) (n : Nat) :
    rotate s n = s.rotate ((n + 1) % 2 ^ 64) := by
  apply List.ext_getElem
  · simp [rotate]
  · intro i h1 h2
    have hi : i < s.length := by simpa [rotate] using h1
    have hpos : 0 < s.length := Nat.lt_of_le_of_lt (Nat.zero_le i) hi
    have hlt : ((n + 1) % 2 ^ 64 + i) % s.length < s.length := Nat.mod_lt _ hpos
    simp only [rotate, List.getElem_map, List.getElem_range,
      List.getD_eq_getElem?_getD, List.getElem?_eq_getElem hlt, Option.getD_some]
    rw [List.getElem_rotate]
    apply Option.some.inj
    rw [← List.getElem?_eq_getElem, ← List.getElem?_eq_getElem,
      show (n + 1) % 2 ^ 64 + i = i + (n + 1) % 2 ^ 64 from by omega]

/-! ### Sanity checks against the doc-tests and unit tests in the source -/

example : invert [1, 2, 3] = [11, 10, 9] := by decide
example : invert [0, 2, 4, 8] = [0, 10, 8, 4] := by decide
example : transpose [1, 2, 3] 4 = [5, 6, 7] := by decide
example : transpose [1, 2, 3] (-14) = [11, 0, 1] := by decide
example : chroma [1, 2, 3] = 14 := by decide
example : chroma [0, 2, 4] = 21 := by decide
example : chroma [0] = 1 := by decide
example : sort [3, 2, 1] = [1, 2, 3] := by decide
example : rotate [1, 2, 3] 4 = [3, 1, 2] := by decide
example : rotate [1, 2, 3] 1 = [3, 1, 2] := by decide
example : zero [1, 2, 3] = [0, 1, 2] := by decide
example : normal [8, 0, 4, 6] = [4, 6, 8, 0] := by decide
example : normal [2, 1, 3, 7, 6] = [1, 2, 3, 6, 7] := by decide
example : reduced [2, 1, 3, 7, 6] = [0, 1, 2, 5, 6] := by decide
example : prime [0, 4, 6, 8] = [0, 2, 4, 8] := by decide
example : prime [2, 4, 8, 9] = [0, 1, 5, 7] := by decide
example : prime [1, 5, 6, 7] = [0, 1, 2, 6] := by decide
example : intervals [4, 9, 3] = [11, 5, 0] := by decide
example : intervals [1, 2, 3] = [2, 1, 0] := by decide
example : icvec [1, 2, 3] = [2, 1, 0, 0, 0, 0] := by decide
example : icvec [0, 2, 4, 5, 7, 9, 11] = [2, 5, 4, 3, 6, 1] := by decide
example : transposition_number [1, 3, 4, 7] [5, 7, 8, 11] = some 4 := by decide
example : index_number [7, 8, 11] [5, 4, 1] = some 0 := by decide
example : index_number [7, 8, 11] [11, 10, 7] = some 6 := by decide

/-! ### Chroma machinery -/

/-- The `rev().fold(..)` over the membership bits of `0..12` computes the
binary value of the little-endian bit list. -/
theorem chroma_eq_bnum (s : PcSet) :
    chroma s = bnum ((List.range 12).map (fun (i : Nat) => s.contains (i : Int))) := by
  unfold chroma bnum
  rw [List.foldl_reverse]

theorem bnum_testBit (bs : List Bool) : ∀ i : Nat, (bnum bs).testBit i = bs.getD i false := by
  induction bs with
  | nil => intro i; simp [bnum]
  | cons b bs ih =>
    intro i
    match i with
    | 0 =>
      show Nat.testBit (bnum bs * 2 + (if b then 1 else 0)) 0 = (b :: bs).getD 0 false
      rw [Nat.testBit_zero]
      cases b <;> simp <;> omega
    | i + 1 =>
      show Nat.testBit (bnum bs * 2 + (if b then 1 else 0)) (i + 1) = (b :: bs).getD (i + 1) false
      rw [Nat.testBit_succ]
      have hdiv : (bnum bs * 2 + (if b then 1 else 0)) / 2 = bnum bs := by
        cases b <;> simp <;> omega
      rw [hdiv, List.getD_cons_succ, ih]

/-- Bit `i` of `chroma s` is the membership test of the value `i` in `s`, for
`i < 12`; all higher bits are clear. -/
theorem chroma_testBit (s : PcSet) (i : Nat) :
    (chroma s).testBit i = if i < 12 then s.contains (i : Int) else false := by
  rw [chroma_eq_bnum, bnum_testBit]
  by_cases hi : i < 12
  · rw [if_pos hi]
    rw [List.getD_eq_getElem?_getD, List.getElem?_map, List.getElem?_range hi]
    rfl
  · rw [if_neg hi]
    rw [List.getD_eq_getElem?_getD, List.getElem?_eq_none (by simpa using Nat.le_of_not_lt hi)]
    rfl

/-! ### Claim C1 -/

/-- Claim C1, as amended: every element of `transpose s n` lies in `[0, 12)`
for every input; every element of `invert s` lies in `[0, 12)` provided
every element `x` of `s` satisfies `-115 ≤ x ≤ 12` (in particular for
in-range inputs).  The original universal claim fails because `invert` uses
a bare truncated `%` without the `+ 12` correction, so an element greater
than `12` yields a negative residue; and for an `i8` element below `-115`
the subtraction `12 - x` itself wraps to a negative value, again producing a
negative residue (e.g. `invert [-128] = [-8]`). -/
theorem invert_transpose_range (s : PcSet) (n : Int) :
    (∀ y ∈ transpose s n, 0 ≤ y ∧ y < 12) ∧
    ((∀ x ∈ s, -115 ≤ x ∧ x ≤ 12) → ∀ y ∈ invert s, 0 ≤ y ∧ y < 12) := by
  refine ⟨transpose_mem_range s n, fun h y hy => ?_⟩
  simp only [invert, List.mem_map] at hy
  obtain ⟨x, hx, rfl⟩ := hy
  obtain ⟨hx1, hx2⟩ := h x hx
  rw [wrap8_id (12 - x) (by omega) (by omega)]
  rw [tmod12_of_nonneg (by omega)]
  omega

/-- Witness for `invert_transpose_range` at `s = [5, -3]`, `n = -14`. -/
theorem invert_transpose_range_witness :
    (∀ y ∈ transpose [(5:Int), -3] (-14), 0 ≤ y ∧ y < 12) ∧
    (∀ y ∈ invert [(5:Int), -3], 0 ≤ y ∧ y < 12) :=
  ⟨(invert_transpose_range [5, -3] (-14)).1,
   (invert_transpose_range [5, -3] (-14)).2 (by decide)⟩

/-- Counterexample to claim C1 as stated: `invert [13] = [-1]` (truncated
`%`) and `invert [-128] = [-8]` (the `i8` subtraction `12 - (-128)` wraps to
`-116`); neither element is in `[0, 12)`. -/
theorem invert_range_counterexample :
    ¬ (∀ y ∈ invert [(13:Int)], 0 ≤ y ∧ y < 12) ∧
    ¬ (∀ y ∈ invert [(-128:Int)], 0 ≤ y ∧ y < 12) := by decide

/-! ### Claim C8 -/

/-- Claim C8: `sort`, `rotate` (for every rotation amount), `zero`, `normal`,
`reduced`, and `prime` all map the empty sequence to the empty sequence; in
this total embedding each is defined (no out-of-bounds access) on `[]`. -/
theorem empty_input_ops :
    sort ([] : PcSet) = [] ∧ (∀ n : Nat, rotate ([] : PcSet) n = []) ∧
    zero ([] : PcSet) = [] ∧ normal ([] : PcSet) = [] ∧
    reduced ([] : PcSet) = [] ∧ prime ([] : PcSet) = [] := by
  refine ⟨rfl, fun n => ?_, rfl, rfl, rfl, rfl⟩
  simp [rotate]

/-! ### Claim C9 -/

/-- Claim C9: on two empty inputs the lengths match and the uniformity
condition is vacuous, yet both `transposition_number` and `index_number`
return `none`. -/
theorem relation_empty_none :
    transposition_number [] [] = none ∧ index_number [] [] = none := by decide

/-! ### Interval-class vector machinery -/

/-- The nested helper of `icvec` produces one entry per unordered pair of
positions: `choose n 2` entries in total. -/
theorem icvecF_length (s : PcSet) : (icvecF s).length = Nat.choose s.length 2 := by
  induction s with
  | nil => simp [icvecF]
  | cons a tl ih =>
    simp only [icvecF, List.length_append, List.length_map, List.length_cons, ih]
    rw [Nat.choose_succ_succ, Nat.choose_one_right]

/-- For an ascending input with pairwise distinct residues whose pairwise
gaps fit in `i8`, every entry the nested helper produces is a genuine
interval class in `1..=6`. -/
theorem icvecF_mem_bounds (s : PcSet) (hs : List.Sorted (· ≤ ·) s)
    (hd : List.Pairwise (fun a b => ¬ ((12:Int) ∣ (b - a))) s)
    (hw : List.Pairwise (fun a b => b - a ≤ 127) s) :
    ∀ d ∈ icvecF s, 1 ≤ d ∧ d ≤ 6 := by
  induction s with
  | nil => simp [icvecF]
  | cons a tl ih =>
    intro d hdmem
    rcases List.mem_append.mp hdmem with hmem | hmem
    · obtain ⟨x, hx, rfl⟩ := List.mem_map.mp hmem
      have hle : a ≤ x := (List.sorted_cons.mp hs).1 x hx
      have hnd : ¬ ((12:Int) ∣ (x - a)) := (List.pairwise_cons.mp hd).1 x hx
      have hwx : x - a ≤ 127 := (List.pairwise_cons.mp hw).1 x hx
      show 1 ≤ (let n := (wrap8 (x - a)).tmod 12; if n > 6 then (12 - n).tmod 12 else n) ∧ _
      simp only
      rw [wrap8_id (x - a) (by omega) (by omega)]
      rw [tmod12_of_nonneg (by omega : (0:Int) ≤ x - a)]
      by_cases hgt : (x - a) % 12 > 6
      · rw [if_pos hgt]
        rw [tmod12_of_nonneg (by omega : (0:Int) ≤ 12 - (x - a) % 12)]
        omega
      · rw [if_neg hgt]
        omega
    · exact ih (List.sorted_cons.mp hs).2 (List.pairwise_cons.mp hd).2
        (List.pairwise_cons.mp hw).2 d hmem

/-- When every entry of a list lies in `1..=6`, the six per-value counts
exhaust the list. -/
theorem count_sum_of_bounds (l : List Int) (h : ∀ d ∈ l, 1 ≤ d ∧ d ≤ 6) :
    l.count 1 + l.count 2 + l.count 3 + l.count 4 + l.count 5 + l.count 6 = l.length := by
  induction l with
  | nil => simp
  | cons a tl ih =>
    have ih' := ih (fun d hd => h d (List.mem_cons_of_mem a hd))
    obtain ⟨h1, h2⟩ := h a (List.mem_cons_self a tl)
    simp only [List.count_cons, List.length_cons]
    interval_cases a <;> simp <;> omega

/-! ### Insertion-sort machinery -/

theorem insertAsc_perm (x : Int) (l : List Int) : List.Perm (insertAsc x l) (x :: l) := by
  induction l with
  | nil => exact List.Perm.refl _
  | cons y ys ih =>
    by_cases hxy : x < y
    · simp only [insertAsc, if_pos hxy]
      exact List.Perm.refl _
    · simp only [insertAsc, if_neg hxy]
      exact (ih.cons y).trans (List.Perm.swap x y ys)

theorem foldl_insertAsc_perm (l : List Int) : ∀ acc : List Int,
    List.Perm (l.foldl (fun a x => insertAsc x a) acc) (acc ++ l) := by
  induction l with
  | nil => intro acc; simp
  | cons x tl ih =>
    intro acc
    simp only [List.foldl_cons]
    refine (ih (insertAsc x acc)).trans ?_
    refine (List.Perm.append_right tl (insertAsc_perm x acc)).trans ?_
    exact List.perm_middle.symm

/-- The embedded insertion sort permutes its input. -/
theorem sort_perm (s : PcSet) : List.Perm (sort s) s := by
  simpa using foldl_insertAsc_perm s []

theorem insertAsc_sorted (x : Int) (l : List Int) (h : List.Sorted (· ≤ ·) l) :
    List.Sorted (· ≤ ·) (insertAsc x l) := by
  induction l with
  | nil => simp [insertAsc]
  | cons y ys ih =>
    obtain ⟨hy, hys⟩ := List.sorted_cons.mp h
    by_cases hxy : x < y
    · simp only [insertAsc, if_pos hxy]
      rw [List.sorted_cons]
      refine ⟨?_, h⟩
      intro b hb
      rcases List.mem_cons.mp hb with rfl | hb
      · omega
      · have := hy b hb
        omega
    · simp only [insertAsc, if_neg hxy]
      rw [List.sorted_cons]
      refine ⟨?_, ih hys⟩
      intro b hb
      rcases List.mem_cons.mp ((insertAsc_perm x ys).mem_iff.mp hb) with rfl | hb'
      · omega
      · exact hy b hb'

theorem foldl_insertAsc_sorted (l : List Int) : ∀ acc, List.Sorted (· ≤ ·) acc →
    List.Sorted (· ≤ ·) (l.foldl (fun a x => insertAsc x a) acc) := by
  induction l with
  | nil =>
    intro acc h
    simpa using h
  | cons x tl ih =>
    intro acc h
    simp only [List.foldl_cons]
    exact ih _ (insertAsc_sorted x acc h)

/-- The embedded insertion sort produces an ascending list. -/
theorem sort_sorted (s : PcSet) : List.Sorted (· ≤ ·) (sort s) :=
  foldl_insertAsc_sorted s [] (by simp)

/-- Sorting is invariant under permutation of the input: there is only one
ascending arrangement of a multiset of integers. -/
theorem sort_eq_of_perm {s t : PcSet} (h : List.Perm s t) : sort s = sort t :=
  List.eq_of_perm_of_sorted ((sort_perm s).trans (h.trans (sort_perm t).symm))
    (sort_sorted s) (sort_sorted t)

/-! ### Claim C2 -/

/-- Claim C2, amended: for an input that is sorted ascending, whose elements
are pairwise distinct modulo 12, and whose pairwise gaps are at most `127`
(so the `i8` subtraction does not wrap; automatic for in-range inputs), the
six entries of `icvec` sum to `choose m 2` where `m` is the size of the
deduplicated set (which then equals the length).  The original universal
claim fails because the nested helper computes `(x - head) % 12` with `i8`
subtraction and Rust's truncated `%`: a pair in descending order yields a
negative value that is tallied into no bin, a duplicated residue yields
class `0`, also never tallied, and a gap above `127` wraps to a negative
value, again tallied nowhere. -/
theorem icvec_sum_spec (s : PcSet) (hs : List.Sorted (· ≤ ·) s)
    (hd : List.Pairwise (fun a b => ¬ ((12:Int) ∣ (b - a))) s)
    (hw : List.Pairwise (fun a b => b - a ≤ 127) s) :
    (icvec s).sum = Nat.choose s.dedup.length 2 := by
  have hnodup : s.Nodup := List.Pairwise.imp (fun hab heq => by omega) hd
  rw [List.dedup_eq_self.mpr hnodup]
  have hlen := icvecF_length s
  have hsum := count_sum_of_bounds (icvecF s) (icvecF_mem_bounds s hs hd hw)
  simp only [icvec, List.sum_cons, List.sum_nil]
  omega

/-- Witness for `icvec_sum_spec` on the diatonic scale from the source's unit
test: the entries of `[2,5,4,3,6,1]` sum to `21 = choose 7 2`. -/
theorem icvec_sum_spec_witness :
    (icvec [(0:Int), 2, 4, 5, 7, 9, 11]).sum
      = Nat.choose (([(0:Int), 2, 4, 5, 7, 9, 11] : PcSet).dedup).length 2 :=
  icvec_sum_spec _ (by decide) (by decide) (by decide)

/-- Counterexample to claim C2 as stated: for the descending input `[1, 0]`
the single pair gives `(0 - 1) % 12 = -1` (truncated `%`), tallied into no
bin, so the entries sum to `0` while `choose 2 2 = 1`; likewise for the
ascending input `[-128, 0]`, where the `i8` subtraction `0 - (-128)` wraps
to `-128` and the pair is again tallied nowhere. -/
theorem icvec_sum_counterexample :
    ¬ ((icvec [(1:Int), 0]).sum = Nat.choose (([(1:Int), 0] : PcSet).dedup).length 2) ∧
    ¬ ((icvec [(-128:Int), 0]).sum
        = Nat.choose (([(-128:Int), 0] : PcSet).dedup).length 2) := by
  decide

/-! ### Lexicographic-comparison machinery -/

/-- The embedded boolean comparison is the mathematical lexicographic strict
order on lists. -/
theorem lexLt_iff (u v : List Int) : lexLt u v = true ↔ List.Lex (· < ·) u v := by
  induction u generalizing v with
  | nil =>
    cases v with
    | nil =>
      constructor
      · intro hc
        simp [lexLt] at hc
      · intro hc
        cases hc
    | cons b bs =>
      constructor
      · intro _
        exact List.Lex.nil
      · intro _
        rfl
  | cons x xs ih =>
    cases v with
    | nil =>
      constructor
      · intro hc
        simp [lexLt] at hc
      · intro hc
        cases hc
    | cons y ys =>
      by_cases h1 : x < y
      · constructor
        · intro _
          exact List.Lex.rel h1
        · intro _
          simp [lexLt, h1]
      · by_cases h2 : y < x
        · constructor
          · intro hc
            simp [lexLt, h1, h2] at hc
          · intro hc
            cases hc with
            | cons hc' => omega
            | rel hc' => omega
        · have hxy : x = y := by omega
          subst hxy
          constructor
          · intro hlt
            have hl : lexLt xs ys = true := by simpa [lexLt, h1] using hlt
            exact List.Lex.cons ((ih ys).mp hl)
          · intro hlex
            have hl : List.Lex (· < ·) xs ys := by
              cases hlex with
              | cons hc' => exact hc'
              | rel hc' => omega
            simpa [lexLt, h1] using (ih ys).mpr hl

theorem lexLt_irrefl (u : List Int) : lexLt u u = false := by
  induction u with
  | nil => rfl
  | cons x xs ih =>
    simp only [lexLt, if_neg (lt_irrefl x)]
    exact ih

theorem lexLt_asymm (u v : List Int) (h : lexLt u v = true) : lexLt v u = false := by
  induction u generalizing v with
  | nil =>
    cases v with
    | nil => simpa [lexLt] using h
    | cons b bs => rfl
  | cons x xs ih =>
    cases v with
    | nil => simp [lexLt] at h
    | cons y ys =>
      by_cases h1 : x < y
      · simp [lexLt, h1, show ¬ y < x from by omega]
      · by_cases h2 : y < x
        · simp [lexLt, h1, h2] at h
        · have hxy : x = y := by omega
          subst hxy
          have h' : lexLt xs ys = true := by simpa [lexLt, h1] using h
          simpa [lexLt, h1] using ih ys h'

theorem lexLt_conn (u v : List Int) (h1 : lexLt u v = false) (h2 : lexLt v u = false) :
    u = v := by
  induction u generalizing v with
  | nil =>
    cases v with
    | nil => rfl
    | cons b bs => simp [lexLt] at h1
  | cons x xs ih =>
    cases v with
    | nil => simp [lexLt] at h2
    | cons y ys =>
      by_cases hxy : x < y
      · simp [lexLt, hxy] at h1
      · by_cases hyx : y < x
        · simp [lexLt, hyx] at h2
        · have hx : x = y := by omega
          subst hx
          have hx1 : lexLt xs ys = false := by simpa [lexLt, hxy] using h1
          have hx2 : lexLt ys xs = false := by simpa [lexLt, hxy] using h2
          rw [ih ys hx1 hx2]

/-! ### Zero-form machinery

The two `prime` candidates both come from `zero`, so they start with `0`
and consist of reduced residues; on such lists `intervals` is simply the
reversed list, hence equal `intervals` vectors force equal candidates. -/

theorem zero_mem_range (w : PcSet) : ∀ y ∈ zero w, 0 ≤ y ∧ y < 12 := by
  cases w with
  | nil =>
    intro y hy
    simp [zero] at hy
  | cons c cs => exact transpose_mem_range (c :: cs) (12 - c)

theorem zero_head (c : Int) (cs : List Int) : (zero (c :: cs)).head? = some 0 := by
  show (transpose (c :: cs) (12 - c)).head? = some 0
  simp only [transpose, List.map_cons, List.head?_cons]
  congr 1
  rw [rustNorm_eq_emod]
  omega

theorem zero_cases (w : PcSet) : zero w = [] ∨ (zero w).head? = some 0 := by
  cases w with
  | nil =>
    left
    rfl
  | cons c cs =>
    right
    exact zero_head c cs

theorem intervals_zero_form (w : PcSet) (hh : w.head? = some 0)
    (hr : ∀ x ∈ w, 0 ≤ x ∧ x < 12) : intervals w = w.reverse := by
  simp only [intervals, hh]
  refine (List.map_congr_left ?_).trans (List.map_id _)
  intro x hx
  have hrx := hr x (List.mem_reverse.mp hx)
  rw [rustNorm_eq_emod]
  show (x - 0) % 12 = x
  omega

theorem intervals_zero_inj (w w' : PcSet)
    (h : intervals (zero w) = intervals (zero w')) : zero w = zero w' := by
  rcases zero_cases w with h1 | h1 <;> rcases zero_cases w' with h2 | h2
  · rw [h1, h2]
  · rw [h1] at h
    rw [intervals_zero_form _ h2 (zero_mem_range w')] at h
    have hnil : zero w' = [] := List.reverse_eq_nil_iff.mp h.symm
    rw [hnil] at h2
    simp at h2
  · rw [h2] at h
    rw [intervals_zero_form _ h1 (zero_mem_range w)] at h
    have hnil : zero w = [] := List.reverse_eq_nil_iff.mp h
    rw [hnil] at h1
    simp at h1
  · rw [intervals_zero_form _ h1 (zero_mem_range w),
      intervals_zero_form _ h2 (zero_mem_range w')] at h
    exact List.reverse_injective h

/-! ### Claim C3 -/

/-- Claim C3: `prime s` is whichever of `a = zero (normal s)` and
`b = zero (normal (invert s))` has the lexicographically smaller `intervals`
vector, and on a tie the result is `a`.  The source returns `b` on ties, but
equal `intervals` vectors force `a = b` (both candidates are zero-forms), so
the tie indeed yields `a`. -/
theorem prime_minimal (s : PcSet) :
    (List.Lex (· < ·) (intervals (zero (normal s))) (intervals (zero (normal (invert s)))) →
      prime s = zero (normal s)) ∧
    (List.Lex (· < ·) (intervals (zero (normal (invert s)))) (intervals (zero (normal s))) →
      prime s = zero (normal (invert s))) ∧
    (intervals (zero (normal s)) = intervals (zero (normal (invert s))) →
      prime s = zero (normal s)) := by
  refine ⟨?_, ?_, ?_⟩
  · intro h
    have hb := (lexLt_iff _ _).mpr h
    simp [prime, hb]
  · intro h
    have hb := (lexLt_iff _ _).mpr h
    have hab := lexLt_asymm _ _ hb
    simp [prime, hab]
  · intro h
    have hzeq := intervals_zero_inj (normal s) (normal (invert s)) h
    have hx : lexLt (intervals (zero (normal s))) (intervals (zero (normal (invert s)))) = false := by
      rw [h]
      exact lexLt_irrefl _
    simp [prime, hx, hzeq]

/-- Witness for `prime_minimal`, exercising all three cases: the tie case at
`[0]`, the first-candidate case at `[0, 1, 3]`, and the second-candidate
case at `[0, 11, 9]`. -/
theorem prime_minimal_witness :
    prime [(0:Int)] = zero (normal [(0:Int)]) ∧
    prime [(0:Int), 1, 3] = zero (normal [(0:Int), 1, 3]) ∧
    prime [(0:Int), 11, 9] = zero (normal (invert [(0:Int), 11, 9])) :=
  ⟨(prime_minimal [0]).2.2 (by decide),
   (prime_minimal [0, 1, 3]).1 (by decide),
   (prime_minimal [0, 11, 9]).2.1 (by decide)⟩

/-! ### Claim C5 -/

/-- Double inversion is the identity on sequences of reduced residues
(within `[0, 12)` every `i8` intermediate is in bounds, so nothing wraps). -/
theorem invert_invert (s : PcSet) (h : ∀ x ∈ s, 0 ≤ x ∧ x < 12) :
    invert (invert s) = s := by
  simp only [invert, List.map_map]
  refine (List.map_congr_left ?_).trans (List.map_id _)
  intro x hx
  have hr := h x hx
  simp only [Function.comp]
  rw [wrap8_id (12 - x) (by omega) (by omega)]
  rw [tmod12_of_nonneg (by omega : (0:Int) ≤ 12 - x)]
  rw [wrap8_id (12 - (12 - x) % 12) (by omega) (by omega)]
  rw [tmod12_of_nonneg (by omega : (0:Int) ≤ 12 - (12 - x) % 12)]
  show (12 - (12 - x) % 12) % 12 = x
  omega

/-- Claim C5, amended: the prime form is invariant under inversion of the
input for sequences whose elements all lie in `[0, 12)`.  The unrestricted
claim fails for out-of-range inputs: there `invert (invert s)` recovers only
the residues of `s`, and `normal` sorts raw values, so the residue order of
the sorted list (hence the candidate set) can genuinely differ. -/
theorem prime_invert_invariant (s : PcSet) (h : ∀ x ∈ s, 0 ≤ x ∧ x < 12) :
    prime s = prime (invert s) := by
  have hii := invert_invert s h
  simp only [prime, hii]
  by_cases h1 : lexLt (intervals (zero (normal s))) (intervals (zero (normal (invert s)))) = true
  · have h2 := lexLt_asymm _ _ h1
    rw [h1, h2]
    simp
  · have h1' : lexLt (intervals (zero (normal s))) (intervals (zero (normal (invert s)))) = false := by
      revert h1
      cases lexLt (intervals (zero (normal s))) (intervals (zero (normal (invert s)))) <;> simp
    by_cases h2 : lexLt (intervals (zero (normal (invert s)))) (intervals (zero (normal s))) = true
    · rw [h1', h2]
      simp
    · have h2' : lexLt (intervals (zero (normal (invert s)))) (intervals (zero (normal s))) = false := by
        revert h2
        cases lexLt (intervals (zero (normal (invert s)))) (intervals (zero (normal s))) <;> simp
      have hab := intervals_zero_inj (normal s) (normal (invert s)) (lexLt_conn _ _ h1' h2')
      rw [h1', h2']
      simpa using hab.symm

/-- Witness for `prime_invert_invariant` at the in-range input `[0, 1, 3]`. -/
theorem prime_invert_invariant_witness :
    prime [(0:Int), 1, 3] = prime (invert [(0:Int), 1, 3]) :=
  prime_invert_invariant [0, 1, 3] (by decide)

/-- Counterexample to claim C5 as stated: for the out-of-range input
`[2, 13, 17]` the prime of the set differs from the prime of its inversion
(`[0, 4, 1]` versus `[0, 9, 1]`). -/
theorem prime_invert_counterexample :
    ¬ (prime [(2:Int), 13, 17] = prime (invert [(2:Int), 13, 17])) := by decide

/-! ### Claim C4 -/

/-- Claim C4: the normal form is invariant under rotation of the input.
Rotation permutes the input; sorting is permutation-invariant, and `normal`
depends only on the sorted deduplicated list and on the input's length,
which rotation preserves. -/
theorem normal_rotate (s : PcSet) (k : Nat) : normal (rotate s k) = normal s := by
  have hperm : List.Perm (rotate s k) s := by
    rw [rotate_eq_listRotate]
    exact List.rotate_perm s ((k + 1) % 2 ^ 64)
  have hsort : sort (rotate s k) = sort s := sort_eq_of_perm hperm
  have hlen : (rotate s k).length = s.length := rotate_length s k
  simp only [normal, hsort, hlen]

/-! ### Claim C6 -/

/-- When every per-index difference fits in `i8`, the differences the code
computes are the floored residues of the mathematical differences. -/
theorem zipWith_wrapdiff_eq (s t : List Int)
    (h : ∀ x ∈ List.zipWith (fun a b => b - a) s t, -128 ≤ x ∧ x ≤ 127) :
    List.zipWith (fun x y => ((wrap8 (y - x)).tmod 12 + 12).tmod 12) s t
      = List.zipWith (fun a b => (b - a) % 12) s t := by
  induction s generalizing t with
  | nil => simp
  | cons a as ih =>
    cases t with
    | nil => simp
    | cons b bs =>
      simp only [List.zipWith_cons_cons]
      obtain ⟨hd1, hd2⟩ := h (b - a)
        (by rw [List.zipWith_cons_cons]; exact List.mem_cons_self _ _)
      congr 1
      · rw [wrap8_id (b - a) (by omega) (by omega), rustNorm_eq_emod]
      · exact ih bs (fun x hx =>
          h x (by rw [List.zipWith_cons_cons]; exact List.mem_cons_of_mem _ hx))

/-- Claim C6, amended: `transposition_number` returns `none` on a length
mismatch; for equal-length nonempty inputs whose per-index differences
`t[i] - s[i]` all fit in `i8` (no wrap; automatic for in-range inputs), it
returns `some d` exactly when every per-index floored difference
`(t[i] - s[i]) mod 12` equals `d` (and hence `none` when the differences
disagree).  The empty equal-length case, where the result is `none`, is
claim C9.  The original claim fails when a difference overflows `i8`: the
wrapped value's residue is returned instead of the floored difference. -/
theorem transposition_number_spec (s t : PcSet) :
    (s.length ≠ t.length → transposition_number s t = none) ∧
    (s.length = t.length → s ≠ [] →
      (∀ x ∈ List.zipWith (fun a b => b - a) s t, -128 ≤ x ∧ x ≤ 127) →
      ∀ d : Int,
        (transposition_number s t = some d ↔
          ∀ x ∈ List.zipWith (fun a b => (b - a) % 12) s t, x = d)) := by
  constructor
  · intro hne
    simp [transposition_number, hne]
  · intro hlen hne hw d
    rcases s with _ | ⟨a, as⟩
    · exact absurd rfl hne
    rcases t with _ | ⟨b, bs⟩
    · simp at hlen
    have hcond : ¬ ((a :: as).length ≠ (b :: bs).length) := fun hc => hc hlen
    simp only [transposition_number, if_neg hcond]
    rw [zipWith_wrapdiff_eq _ _ hw]
    simp only [List.zipWith_cons_cons, List.head?_cons]
    by_cases hall : ((b - a) % 12 :: List.zipWith (fun x y => (y - x) % 12) as bs).all
        (fun x => x == (b - a) % 12) = true
    · rw [if_pos hall]
      constructor
      · intro hsome x hx
        have h1 := List.all_eq_true.mp hall x hx
        rw [beq_iff_eq] at h1
        have h2 : (b - a) % 12 = d := by injection hsome
        rw [h1, h2]
      · intro hx
        have h1 : (b - a) % 12 = d := hx _ (List.mem_cons_self _ _)
        rw [h1]
    · rw [if_neg hall]
      constructor
      · intro hsome
        exact absurd hsome (by simp)
      · intro hx
        exfalso
        apply hall
        rw [List.all_eq_true]
        intro x hxmem
        rw [beq_iff_eq, hx x hxmem, hx _ (List.mem_cons_self _ _)]

/-- Witness for `transposition_number_spec` on the source's own unit test
`[1,3,4,7]`, `[5,7,8,11]` (common difference `4`). -/
theorem transposition_number_spec_witness :
    transposition_number [1, 3, 4, 7] [5, 7, 8, 11] = some 4 :=
  ((transposition_number_spec [1, 3, 4, 7] [5, 7, 8, 11]).2 rfl (by decide)
    (by decide) 4).mpr (by decide)

/-- Counterexample to claim C6 as stated: at `S = [-128]`, `T = [127]` the
`i8` subtraction `127 - (-128)` wraps to `-1`, so the code returns
`some 11`, not `some` of the floored difference `(127 - (-128)) mod 12 = 3`. -/
theorem transposition_number_counterexample :
    transposition_number [(-128:Int)] [127] = some 11 ∧
    ¬ (transposition_number [(-128:Int)] [127] = some (((127:Int) - (-128)) % 12)) := by
  decide

/-! ### Claim C7 -/

/-- Claim C7, amended: for inputs whose elements all lie in `[0, 12)`, bit
`i` of `chroma s` is set exactly when `i < 12` and residue `i` occurs in
`s`, and the number of set bits equals the cardinality of the deduplicated
set.  The original universal claim fails for out-of-range elements, which
`chroma` never records (it tests literal membership of the values `0..=11`),
e.g. `chroma [12] = 0` while the deduplicated set has one element. -/
theorem chroma_spec (s : PcSet) (h : ∀ x ∈ s, 0 ≤ x ∧ x < 12) :
    (∀ i : Nat, ((chroma s).testBit i = true ↔ (i < 12 ∧ (i : Int) ∈ s))) ∧
    ((List.range 12).filter (fun i => (chroma s).testBit i)).length = s.dedup.length := by
  constructor
  · intro i
    rw [chroma_testBit]
    by_cases hi : i < 12
    · rw [if_pos hi]
      simp [hi]
    · rw [if_neg hi]
      simp [hi]
  · have hcongr : ∀ i ∈ List.range 12, ((chroma s).testBit i) = s.contains (i : Int) := by
      intro i hi
      rw [chroma_testBit, if_pos (List.mem_range.mp hi)]
    rw [List.filter_congr hcongr]
    have hfm := congrArg List.length
      (List.filter_map (fun (i : Nat) => (i : Int)) (List.range 12)
        (p := fun x => s.contains x))
    rw [List.length_map] at hfm
    rw [show (fun (i : Nat) => s.contains (i : Int)) =
          ((fun x => s.contains x) ∘ (fun (i : Nat) => (i : Int))) from rfl, ← hfm]
    have hLnodup : (((List.range 12).map (fun (i : Nat) => (i : Int))).filter
        (fun x => s.contains x)).Nodup :=
      List.Nodup.filter _
        (List.Nodup.map (fun a b hab => by omega) (List.nodup_range 12))
    have hperm : List.Perm
        (((List.range 12).map (fun (i : Nat) => (i : Int))).filter
          (fun x => s.contains x)) s.dedup := by
      rw [List.perm_ext_iff_of_nodup hLnodup (List.nodup_dedup s)]
      intro a
      simp only [List.mem_filter, List.mem_dedup, List.mem_map, List.mem_range]
      constructor
      · rintro ⟨-, hc⟩
        simpa using hc
      · intro ha
        have hr := h a ha
        refine ⟨⟨a.toNat, by omega, by omega⟩, by simpa using ha⟩
    exact hperm.length_eq

/-- Witness for `chroma_spec` on the source's own unit test `[0, 2, 4]`
(`chroma` is `21`, three set bits, three distinct elements). -/
theorem chroma_spec_witness :
    ((chroma [(0:Int), 2, 4]).testBit 2 = true ↔
      (2 < 12 ∧ ((2:Nat) : Int) ∈ ([(0:Int), 2, 4] : PcSet))) ∧
    ((List.range 12).filter (fun i => (chroma [(0:Int), 2, 4]).testBit i)).length
      = ([(0:Int), 2, 4] : PcSet).dedup.length :=
  ⟨(chroma_spec [0, 2, 4] (by decide)).1 2, (chroma_spec [0, 2, 4] (by decide)).2⟩

/-- Counterexample to claim C7 as stated: the out-of-range input `[12]` has
`chroma [12] = 0` (no set bits) while its deduplicated set has one element. -/
theorem chroma_popcount_counterexample :
    ¬ (((List.range 12).filter (fun i => (chroma [(12:Int)]).testBit i)).length
        = ([(12:Int)] : PcSet).dedup.length) := by decide

/-! ### Claim C10 -/

/-- Claim C10, amended: for nonempty `s` and every rotation count `n` with
`n + 1 < 2 ^ 64` (every `usize` value below `usize::MAX`), `rotate s n` is
the cyclic left-rotation of `s` by `(n + 1) % s.length` positions (rotation
counts past the length wrap around instead of failing) and preserves the
length.  The original claim fails only at `n = usize::MAX`, where the skip
count `n + 1` wraps to `0` (in a release build; a debug build panics). -/
theorem rotate_cyclic (s : PcSet) (n : Nat) (_h : s ≠ []) (hn : n + 1 < 2 ^ 64) :
    rotate s n = s.rotate ((n + 1) % s.length) ∧ (rotate s n).length = s.length := by
  refine ⟨?_, rotate_length s n⟩
  rw [rotate_eq_listRotate, Nat.mod_eq_of_lt hn, List.rotate_mod]

/-- Witness for `rotate_cyclic` at `s = [1, 2, 3]`, `n = 4` (rotation count
past the length wraps: `(4 + 1) % 3 = 2`). -/
theorem rotate_cyclic_witness :
    rotate [(1:Int), 2, 3] 4 = List.rotate [(1:Int), 2, 3] ((4 + 1) % ([(1:Int), 2, 3] : PcSet).length) ∧
    (rotate [(1:Int), 2, 3] 4).length = ([(1:Int), 2, 3] : PcSet).length :=
  rotate_cyclic [1, 2, 3] 4 (by decide) (by decide)

/-- Counterexample to claim C10 as stated: at `n = usize::MAX` the skip
count wraps to `0`, so `rotate [1,2,3] (2^64 - 1) = [1,2,3]`, not the
claimed rotation by `(n + 1) mod 3 = 1`, which is `[2,3,1]`. -/
theorem rotate_cyclic_counterexample :
    rotate [(1:Int), 2, 3] (2 ^ 64 - 1) = [1, 2, 3] ∧
    ¬ (rotate [(1:Int), 2, 3] (2 ^ 64 - 1)
        = List.rotate [(1:Int), 2, 3] ((2 ^ 64 - 1 + 1) % ([(1:Int), 2, 3] : PcSet).length)) := by
  decide

end Lipsi
